import Mathlib

/-!
Shallow embedding of the toy-crdt replicated map (safe variant `FixedMap`
from src/map_fixed.rs, unsafe variant `BrokenMap` from src/map_broken.rs)
together with the peer protocol from src/main.rs, and proofs about the
specified properties.

A `Timestamp` is a Rust `(u32, usize)` pair ordered lexicographically by
the derived `Ord`; we model the machine integers as `Nat` since no claim
concerns overflow.  The Rust `BTreeSet<(Timestamp, char, char)>` is
modelled as a `List` kept in ascending iteration order by an ordered
insert; `retain` is `List.filter` and iteration (`iter().find`,
`iter().max`) is list traversal, which matches `BTreeSet` iteration
exactly on sorted lists.
-/

abbrev Ts : Type := Nat × Nat

abbrev Entry : Type := Ts × Char × Char

/-- Lexicographic strict order on timestamps, as derived by Rust `Ord` on
`(u32, usize)` tuples. -/
def tsLtb (a b : Ts) : Bool :=
  a.1 < b.1 || (a.1 = b.1 && a.2 < b.2)

/-- Lexicographic strict order on entries `(timestamp, key, value)`, as
derived by Rust `Ord` on the stored triples. -/
def entryLtb (a b : Entry) : Bool :=
  tsLtb a.1 b.1 ||
    (a.1 = b.1 && (a.2.1 < b.2.1 || (a.2.1 = b.2.1 && a.2.2 < b.2.2)))

/-- Ordered insertion into the sorted entry list, modelling
`BTreeSet::insert`: no duplicate is created when the element is already
present. -/
def insertE (e : Entry) : List Entry → List Entry
  | [] => [e]
  | a :: l =>
    if entryLtb e a then e :: a :: l
    else if e = a then a :: l
    else a :: insertE e l

/-- Maximum of a list of timestamps under the lexicographic order,
modelling `Iterator::max` over a `Vec<Timestamp>` (`none` on empty). -/
def listMaxTs : List Ts → Option Ts
  | [] => none
  | t :: rest => some (rest.foldl (fun a b => if tsLtb a b then b else a) t)

/-- The versions currently stored for `key`: the `big_t` computation that
`FixedMap::get`, `FixedMap::set` and `FixedMap::delete` all perform. -/
def keyVersionsL (l : List Entry) (key : Char) : List Ts :=
  l.filterMap (fun e => if e.2.1 = key then some e.1 else none)

/-- Replica state of the safe variant, `FixedMap` in src/map_fixed.rs. -/
structure FMap where
  actor_id : Nat
  max_op : Nat
  values : List Entry
deriving DecidableEq, Repr

/-- Rust `FixedMap::new`. -/
def FMap.new (i : Nat) : FMap :=
  { actor_id := i, max_op := 0, values := [] }

/-- Rust `FixedMap::update_max_op`. -/
def FMap.updateMaxOp (m : FMap) (t : Ts) : FMap :=
  { m with max_op := max m.max_op t.1 }

/-- Rust `FixedMap::get`: collect the versions stored for the key, take their
maximum, and return the value of the first stored entry carrying the key
and that maximal version. -/
def FMap.get (m : FMap) (key : Char) : Option Char :=
  match listMaxTs (keyVersionsL m.values key) with
  | none => none
  | some max_t =>
    (m.values.find? (fun e => decide (e.2.1 = key) && decide (e.1 = max_t))).map
      (fun e => e.2.2)

/-- Rust `FixedMap::set`: issue a fresh timestamp, drop every entry whose
version is among the stored versions for the key, insert the new entry,
and return the superseded versions (the context) with the new timestamp. -/
def FMap.set (m : FMap) (key value : Char) : (List Ts × Ts) × FMap :=
  let big_t := keyVersionsL m.values key
  let t : Ts := (m.max_op + 1, m.actor_id)
  ((big_t, t),
    { m with
      max_op := m.max_op + 1
      values := insertE (t, key, value)
        ((m.values.filter (fun e => decide (e.1 ∉ big_t)))) })

/-- Rust `FixedMap::delete`: drop every entry whose version is among the stored
versions for the key and return those versions; the return is
unconditionally `some`. -/
def FMap.delete (m : FMap) (key : Char) : Option (List Ts) × FMap :=
  let big_t := keyVersionsL m.values key
  (some big_t,
    { m with values := m.values.filter (fun e => decide (e.1 ∉ big_t)) })

/-- Rust `FixedMap::receive_set`: advance the counter, drop every entry whose
version is in the context, then insert the received entry. -/
def FMap.receiveSet (m : FMap) (context : List Ts) (t : Ts) (key value : Char) :
    FMap :=
  let m1 := m.updateMaxOp t
  { m1 with
    values := insertE (t, key, value)
      (m1.values.filter (fun e => decide (e.1 ∉ context))) }

/-- Rust `FixedMap::receive_delete`: advance the counter by the maximal context
version if any, then drop every entry whose version is in the context. -/
def FMap.receiveDelete (m : FMap) (context : List Ts) : FMap :=
  let m1 := match listMaxTs context with
    | none => m
    | some t => m.updateMaxOp t
  { m1 with values := m1.values.filter (fun e => decide (e.1 ∉ context)) }

/-- Replica state of the unsafe variant, `BrokenMap` in src/map_broken.rs. -/
structure BMap where
  actor_id : Nat
  max_op : Nat
  values : List Entry
deriving DecidableEq, Repr

/-- Rust `BrokenMap::new`. -/
def BMap.new (i : Nat) : BMap :=
  { actor_id := i, max_op := 0, values := [] }

/-- Rust `BrokenMap::update_max_op`. -/
def BMap.updateMaxOp (m : BMap) (t : Ts) : BMap :=
  { m with max_op := max m.max_op t.1 }

/-- Rust `BrokenMap::get`: the value of the first stored entry matching the
key in iteration order. -/
def BMap.get (m : BMap) (key : Char) : Option Char :=
  (m.values.find? (fun e => decide (e.2.1 = key))).map (fun e => e.2.2)

/-- Rust `BrokenMap::set`: issue a fresh timestamp, remove the first matching
prior entry if any, insert the new entry, and return an empty context. -/
def BMap.set (m : BMap) (key v : Char) : (List Ts × Ts) × BMap :=
  let t : Ts := (m.max_op + 1, m.actor_id)
  let vals := match m.values.find? (fun e => decide (e.2.1 = key)) with
    | some previous => m.values.filter (fun e => decide (e ≠ previous))
    | none => m.values
  (([], t), { m with max_op := m.max_op + 1, values := insertE (t, key, v) vals })

/-- Rust `BrokenMap::delete`: remove the first matching entry if any and
return its single version; `none` when the key is absent. -/
def BMap.delete (m : BMap) (key : Char) : Option (List Ts) × BMap :=
  match m.values.find? (fun e => decide (e.2.1 = key)) with
  | some e => (some [e.1], { m with values := m.values.filter (fun x => decide (x ≠ e)) })
  | none => (none, m)

/-- Rust `BrokenMap::receive_set`: advance the counter; if no stored entry for
the key has a version at or above the incoming one, replace all entries
for the key by the received entry, otherwise ignore it.  The context is
unused. -/
def BMap.receiveSet (m : BMap) (_context : List Ts) (t : Ts) (key value : Char) :
    BMap :=
  let m1 := m.updateMaxOp t
  let previous := m1.values.filter (fun e => decide (e.2.1 = key))
  if previous.isEmpty || previous.all (fun e => tsLtb e.1 t) then
    { m1 with
      values := insertE (t, key, value)
        (m1.values.filter (fun e => decide (e ∉ previous))) }
  else m1

/-- Rust `BrokenMap::receive_delete`: reads `timestamp[0]` unconditionally, so
it is modelled as `Option`-valued, `none` standing for the out-of-bounds
panic on an empty context; otherwise it advances the counter by the first
context version and removes the first entry carrying exactly that
version. -/
def BMap.receiveDelete (m : BMap) (context : List Ts) : Option BMap :=
  match context with
  | [] => none
  | t0 :: _ =>
    let m1 := m.updateMaxOp t0
    some (match m1.values.find? (fun e => decide (e.1 = t0)) with
      | some e => { m1 with values := m1.values.filter (fun x => decide (x ≠ e)) }
      | none => m1)

/-!
The safe-variant peer protocol from src/main.rs specialised to `FixedMap`:
a world of replicas and a pool of in-flight sync messages.  A local client
operation applies `set`/`delete` at one replica and broadcasts the
resulting sync message; the `Delete` handler broadcasts exactly when the
local `delete` returned `some` context.  Delivery picks any pooled
message and any replica other than its sender; messages are never removed
from the pool, so any delivery order and any amount of duplication is
expressible, and ignoring a message models a drop.
-/

inductive SMsg where
  | putSyncM (sender : Nat) (context : List Ts) (t : Ts) (key value : Char)
  | deleteSyncM (sender : Nat) (context : List Ts)
deriving DecidableEq, Repr

structure World where
  replicas : List FMap
  msgs : List SMsg
deriving DecidableEq, Repr

inductive PAct where
  | clientSet (i : Nat) (key value : Char)
  | clientDelete (i : Nat) (key : Char)
  | deliver (i j : Nat)
deriving DecidableEq, Repr

/-- One protocol step of the safe variant: the `Put`/`Delete`/sync
handlers of `Peer::on_msg` wired to the `FixedMap` operations.  Actions
that name no real replica or message, or would deliver a message back to
its sender, leave the world unchanged. -/
def World.step (w : World) : PAct → World
  | .clientSet i k v =>
    match w.replicas[i]? with
    | none => w
    | some m =>
      let r := m.set k v
      { replicas := w.replicas.set i r.2
        msgs := w.msgs ++ [.putSyncM i r.1.1 r.1.2 k v] }
  | .clientDelete i k =>
    match w.replicas[i]? with
    | none => w
    | some m =>
      let r := m.delete k
      match r.1 with
      | some ctx =>
        { replicas := w.replicas.set i r.2
          msgs := w.msgs ++ [.deleteSyncM i ctx] }
      | none => { w with replicas := w.replicas.set i r.2 }
  | .deliver i j =>
    match w.replicas[i]?, w.msgs[j]? with
    | some m, some (.putSyncM s ctx t k v) =>
      if s = i then w
      else { w with replicas := w.replicas.set i (m.receiveSet ctx t k v) }
    | some m, some (.deleteSyncM s ctx) =>
      if s = i then w
      else { w with replicas := w.replicas.set i (m.receiveDelete ctx) }
    | _, _ => w

def World.run (w : World) (acts : List PAct) : World :=
  acts.foldl World.step w

def World.init (n : Nat) : World :=
  { replicas := (List.range n).map (fun i => FMap.new i), msgs := [] }

/-- A local client operation against a single replica, with no message
receipt involved. -/
inductive LocalOp where
  | setOp (key value : Char)
  | delOp (key : Char)
deriving DecidableEq, Repr

def FMap.applyLocal (m : FMap) : LocalOp → FMap
  | .setOp k v => (m.set k v).2
  | .delOp k => (m.delete k).2

def FMap.runLocal (m : FMap) (ops : List LocalOp) : FMap :=
  ops.foldl FMap.applyLocal m

/-- The uniqueness predicate checked by `only_one_of_each_key` in
src/main.rs: the set of keys of the stored entries has the same
cardinality as the set of stored entries. -/
def oneOfEachKey (l : List Entry) : Prop :=
  ((l.map (fun e => e.2.1)).toFinset.card = l.toFinset.card)

instance (l : List Entry) : Decidable (oneOfEachKey l) := by
  unfold oneOfEachKey; infer_instance

/-- A sync message of the safe variant as received by one replica (sender
irrelevant), for stating commutativity of message application. -/
inductive FMsg where
  | putSync (context : List Ts) (t : Ts) (key value : Char)
  | deleteSync (context : List Ts)
deriving DecidableEq, Repr

def FMap.applyMsg (m : FMap) : FMsg → FMap
  | .putSync c t k v => m.receiveSet c t k v
  | .deleteSync c => m.receiveDelete c

def FMsg.context : FMsg → List Ts
  | .putSync c _ _ _ => c
  | .deleteSync c => c

/-- The versions carried by a sync message: the written version for a
`PutSync`, nothing for a `DeleteSync`. -/
def FMsg.vers : FMsg → List Ts
  | .putSync _ t _ _ => [t]
  | .deleteSync _ => []

/-- Two sync messages are causally unrelated when neither message's
version is a member of the other message's context. -/
def unrelatedMsgs (m1 m2 : FMsg) : Prop :=
  (∀ t ∈ m1.vers, t ∉ m2.context) ∧ (∀ t ∈ m2.vers, t ∉ m1.context)

instance (m1 m2 : FMsg) : Decidable (unrelatedMsgs m1 m2) := by
  unfold unrelatedMsgs; infer_instance

/-- The maximum of the counter components of a list of timestamps. -/
def countersMax (l : List Ts) : Nat :=
  l.foldl (fun n t => max n t.1) 0

/-! Basic membership lemmas about the embedded operations. -/

theorem mem_insertE (e a : Entry) (l : List Entry) :
    a ∈ insertE e l ↔ a = e ∨ a ∈ l := by
  induction l with
  | nil => simp [insertE]
  | cons b t ih =>
    by_cases hlt : entryLtb e b
    · simp [insertE, hlt]
    · by_cases heq : e = b
      · subst heq
        simp only [insertE, hlt, if_false, if_pos rfl]
        constructor
        · intro h; exact Or.inr h
        · rintro (rfl | h)
          · exact List.mem_cons_self _ _
          · exact h
      · simp [insertE, hlt, heq, List.mem_cons, ih]
        tauto

@[simp]
theorem FMap.fvalues_updateMaxOp (m : FMap) (t : Ts) :
    (m.updateMaxOp t).values = m.values := rfl

@[simp]
theorem BMap.bvalues_updateMaxOp (m : BMap) (t : Ts) :
    (m.updateMaxOp t).values = m.values := rfl

theorem mem_keyVersionsL (l : List Entry) (k : Char) (x : Ts) :
    x ∈ keyVersionsL l k ↔ ∃ e ∈ l, e.2.1 = k ∧ e.1 = x := by
  simp only [keyVersionsL, List.mem_filterMap]
  constructor
  · rintro ⟨e, he, hx⟩
    by_cases h : e.2.1 = k
    · simp [h] at hx; exact ⟨e, he, h, hx⟩
    · simp [h] at hx
  · rintro ⟨e, he, hk, hx⟩
    exact ⟨e, he, by simp [hk, hx]⟩

theorem FMap.mem_receiveSet_values (m : FMap) (c : List Ts) (t : Ts)
    (k v : Char) (e : Entry) :
    e ∈ (m.receiveSet c t k v).values ↔ e = (t, k, v) ∨ (e ∈ m.values ∧ e.1 ∉ c) := by
  simp [FMap.receiveSet, mem_insertE, List.mem_filter]

theorem FMap.mem_receiveDelete_values (m : FMap) (c : List Ts) (e : Entry) :
    e ∈ (m.receiveDelete c).values ↔ e ∈ m.values ∧ e.1 ∉ c := by
  unfold FMap.receiveDelete
  cases h : listMaxTs c <;> simp [List.mem_filter]

theorem listMaxTs_all_eq (l : List Ts) (t : Ts) (hne : l ≠ [])
    (hall : ∀ x ∈ l, x = t) : listMaxTs l = some t := by
  match l, hne with
  | a :: rest, _ =>
    have ha : a = t := hall a (List.mem_cons_self _ _)
    subst ha
    simp only [listMaxTs, Option.some.injEq]
    have : ∀ rest' : List Ts, (∀ x ∈ rest', x = a) →
        rest'.foldl (fun x y => if tsLtb x y then y else x) a = a := by
      intro rest' h
      induction rest' with
      | nil => rfl
      | cons b tl ih =>
        have hb : b = a := h b (List.mem_cons_self _ _)
        subst hb
        simp only [List.foldl_cons, ite_self]
        exact ih (fun x hx => h x (List.mem_cons_of_mem _ hx))
    exact this rest (fun x hx => hall x (List.mem_cons_of_mem _ hx))

/-! Claim theorems. -/

/-- C4: the safe variant's `receive_set(context, version, key, value)`
removes exactly the locally held entries whose version is a member of the
context, leaves every entry whose version is not in the context unchanged,
and inserts the entry `(version, key, value)` unconditionally, regardless
of existing entries for the same key. -/
theorem fixedReceiveSetCharacterization (m : FMap) (context : List Ts)
    (t : Ts) (k v : Char) (e : Entry) :
    e ∈ (m.receiveSet context t k v).values ↔
      e = (t, k, v) ∨ (e ∈ m.values ∧ e.1 ∉ context) :=
  FMap.mem_receiveSet_values m context t k v e

/-- C3 counterexample: `FixedMap::delete` on a key with no stored entries
does not return `None` as claimed; it returns `Some` of an empty context. -/
theorem fixedDeleteAbsentCounterexample :
    ((FMap.new 0).delete 'k').1 = some ([] : List Ts) ∧
      ((FMap.new 0).delete 'k').1 ≠ none := by decide

/-- C3 amended: `FixedMap::delete` always returns `Some` context — the
versions stored for the key — and removes exactly the entries whose
version is among those versions; when no entry for the key exists the
context is empty and the state is unchanged (so the broadcast is not
suppressed, but carries an empty context). -/
theorem fixedDeleteCharacterization (m : FMap) (k : Char) (e : Entry) :
    (m.delete k).1 = some (keyVersionsL m.values k) ∧
    (e ∈ (m.delete k).2.values ↔ e ∈ m.values ∧ e.1 ∉ keyVersionsL m.values k) ∧
    ((∀ x ∈ m.values, x.2.1 ≠ k) → m.delete k = (some [], m)) := by
  refine ⟨rfl, ?_, ?_⟩
  · simp [FMap.delete, List.mem_filter]
  · intro h
    have hkv : keyVersionsL m.values k = [] := by
      apply List.filterMap_eq_nil_iff.mpr
      intro a ha
      simp [h a ha]
    obtain ⟨a, mo, vs⟩ := m
    simp only [FMap.delete, hkv]
    have hfil : List.filter (fun e => decide (e.1 ∉ ([] : List Ts))) vs = vs :=
      List.filter_eq_self.mpr (fun x _ => by simp)
    rw [hfil]

/-- C10: the unsafe variant's `receive_delete` reads the first context
element unconditionally, so it is undefined (panics) exactly on the empty
context and defined on every non-empty one; every context the unsafe
variant's own `delete` returns is a one-element vector; and the safe
variant's `receive_delete` accepts the empty context and leaves the state
unchanged. -/
theorem receiveDeleteTotality (mf : FMap) (mb mb2 : BMap) (k : Char)
    (t0 : Ts) (rest ctx : List Ts) (h : (mb2.delete k).1 = some ctx) :
    mb.receiveDelete [] = none ∧
    (mb.receiveDelete (t0 :: rest)).isSome = true ∧
    ctx.length = 1 ∧
    mf.receiveDelete [] = mf := by
  refine ⟨rfl, by simp [BMap.receiveDelete], ?_, ?_⟩
  · unfold BMap.delete at h
    cases hf : mb2.values.find? (fun e => decide (e.2.1 = k)) with
    | some e => rw [hf] at h; simp at h; simp [← h]
    | none => rw [hf] at h; simp at h
  · obtain ⟨a, mo, vs⟩ := mf
    simp only [FMap.receiveDelete, listMaxTs]
    congr 1
    apply List.filter_eq_self.mpr
    intro x hx
    simp

/-- Witness for the C10 theorem at concrete inputs. -/
theorem receiveDeleteTotalityWitness :
    (BMap.new 0).receiveDelete [] = none ∧
    ((BMap.new 0).receiveDelete ((1, 0) :: [])).isSome = true ∧
    ([((1 : Nat), (0 : Nat))] : List Ts).length = 1 ∧
    (FMap.new 0).receiveDelete [] = FMap.new 0 :=
  receiveDeleteTotality (FMap.new 0) (BMap.new 0)
    ⟨0, 1, [((1, 0), 'b', 'x')]⟩ 'b' (1, 0) [] [(1, 0)] (by decide)

theorem foldl_maxts_fst (rest : List Ts) :
    ∀ a : Ts, (rest.foldl (fun x y => if tsLtb x y then y else x) a).1 =
      rest.foldl (fun n t => max n t.1) a.1 := by
  induction rest with
  | nil => intro a; rfl
  | cons b tl ih =>
    intro a
    simp only [List.foldl_cons]
    rw [ih]
    congr 1
    by_cases h : tsLtb a b
    · have hle : a.1 ≤ b.1 := by
        simp only [tsLtb, Bool.or_eq_true, Bool.and_eq_true, decide_eq_true_eq] at h
        rcases h with h | ⟨h, _⟩
        · exact Nat.le_of_lt h
        · exact Nat.le_of_eq h
      simp [h, Nat.max_eq_right hle]
    · have hle : b.1 ≤ a.1 := by
        simp only [tsLtb, Bool.or_eq_true, Bool.and_eq_true, decide_eq_true_eq,
          not_or, not_and] at h
        exact Nat.le_of_not_lt h.1
      simp [h, Nat.max_eq_left hle]

/-- C7 counterexample: the unsafe variant's `receive_delete` on the
two-element context `[(1,0), (2,1)]` advances the counter only by the
first context version's counter, not by the maximum of the incoming
counters as claimed. -/
theorem brokenReceiveDeleteMaxOpCounterexample :
    ¬ (((BMap.new 0).receiveDelete [(1, 0), (2, 1)]).map (fun m => m.max_op)
        = some (max (BMap.new 0).max_op (countersMax [(1, 0), (2, 1)]))) := by
  decide

/-- C7 amended: `receive_set` in both variants and the safe variant's
`receive_delete` set the local counter to the maximum of its current
value and the counter components of the incoming version(s); the unsafe
variant's `receive_delete` instead uses the counter of the first context
element, which agrees with the maximum exactly when the context is a
singleton — the shape its own `delete` always produces.  A version issued
afterwards carries counter `max_op + 1`, strictly above everything
observed. -/
theorem maxOpAdvance (mf : FMap) (mb : BMap) (c : List Ts) (t t0 : Ts)
    (rest : List Ts) (k v : Char) :
    (mf.receiveSet c t k v).max_op = max mf.max_op t.1 ∧
    (mb.receiveSet c t k v).max_op = max mb.max_op t.1 ∧
    (mf.receiveDelete c).max_op = max mf.max_op (countersMax c) ∧
    ((mb.receiveDelete (t0 :: rest)).map (fun m => m.max_op)
      = some (max mb.max_op t0.1)) ∧
    ((mb.receiveDelete [t0]).map (fun m => m.max_op)
      = some (max mb.max_op (countersMax [t0]))) ∧
    (mf.set k v).1.2.1 = mf.max_op + 1 ∧
    (mb.set k v).1.2.1 = mb.max_op + 1 := by
  refine ⟨rfl, ?_, ?_, ?_, ?_, rfl, rfl⟩
  · simp only [BMap.receiveSet]
    split <;> rfl
  · cases c with
    | nil => simp [FMap.receiveDelete, listMaxTs, countersMax]
    | cons t1 tl =>
      simp only [FMap.receiveDelete, listMaxTs, FMap.updateMaxOp, countersMax,
        List.foldl_cons]
      rw [foldl_maxts_fst]
      congr 1
      simp [Nat.zero_max]
  · simp only [BMap.receiveDelete]
    cases hf : (mb.updateMaxOp t0).values.find? (fun e => decide (e.1 = t0)) <;>
      simp [BMap.updateMaxOp]
  · simp only [BMap.receiveDelete]
    cases hf : (mb.updateMaxOp t0).values.find? (fun e => decide (e.1 = t0)) <;>
      simp [BMap.updateMaxOp, countersMax, Nat.zero_max]

/-- The two-replica concurrent-write scenario of the spec's Scenario A,
executed directly against the safe variant: replica 0 sets key k to A,
replica 1 concurrently sets key k to B, then each applies the other's
`PutSync`. -/
def scnR0 : (List Ts × Ts) × FMap := (FMap.new 0).set 'k' 'A'

def scnR1 : (List Ts × Ts) × FMap := (FMap.new 1).set 'k' 'B'

def scnR0f : FMap := scnR0.2.receiveSet scnR1.1.1 scnR1.1.2 'k' 'B'

def scnR1f : FMap := scnR1.2.receiveSet scnR0.1.1 scnR0.1.2 'k' 'A'

/-- C2 counterexample: after the concurrent exchange the replicas do not
hold exactly one entry for key k carrying the maximal version
`(1, 1)` with the losing entry absent — the losing entry `((1,0), k, A)`
survives in both replicas. -/
theorem scenarioACounterexample :
    ¬ (scnR0f.values.filter (fun e => decide (e.2.1 = 'k')) = [((1, 1), 'k', 'B')] ∧
       scnR1f.values.filter (fun e => decide (e.2.1 = 'k')) = [((1, 1), 'k', 'B')] ∧
       ((1, 0), 'k', 'A') ∉ scnR0f.values ∧
       ((1, 0), 'k', 'A') ∉ scnR1f.values) := by decide

/-- C2 amended: after the concurrent exchange both replicas converge to
the same entry set, which holds both sibling entries for key k; `get`
resolves the conflict and returns B, the value written under the
lexicographically greater version `(1, 1)`. -/
theorem scenarioAConvergence :
    scnR0f.values = scnR1f.values ∧
    scnR0f.values = [((1, 0), 'k', 'A'), ((1, 1), 'k', 'B')] ∧
    scnR0f.get 'k' = some 'B' ∧
    scnR1f.get 'k' = some 'B' ∧
    tsLtb (1, 0) (1, 1) = true ∧
    scnR0.1.2 = (1, 0) ∧ scnR1.1.2 = (1, 1) := by decide

/-- C1 counterexample: a protocol-reachable state of the safe variant in
which replica 1 holds two entries for key k — replica 0 and replica 1
concurrently set the key, then replica 1 receives replica 0's `PutSync`. -/
theorem fixedProtocolUniquenessCounterexample :
    ¬ oneOfEachKey (((World.run (World.init 2)
        [.clientSet 0 'k' 'A', .clientSet 1 'k' 'B', .deliver 1 0]).replicas.getD 1
          (FMap.new 1)).values) := by decide

theorem tsLtb_irrefl (t : Ts) : tsLtb t t = false := by
  simp [tsLtb]

/-- The branch condition of `BrokenMap::receive_set`: the stored entries
for the key are empty or all strictly below the incoming version. -/
def bApplyCond (l : List Entry) (t : Ts) (k : Char) : Bool :=
  (l.filter (fun e => decide (e.2.1 = k))).isEmpty ||
    (l.filter (fun e => decide (e.2.1 = k))).all (fun e => tsLtb e.1 t)

theorem BMap.receiveSet_values_pos (m : BMap) (c : List Ts) (t : Ts)
    (k v : Char) (h : bApplyCond m.values t k = true) :
    (m.receiveSet c t k v).values = insertE (t, k, v)
      (m.values.filter
        (fun e => decide (e ∉ m.values.filter (fun x => decide (x.2.1 = k))))) := by
  simp only [BMap.receiveSet]
  split
  · rfl
  · next h' => exact absurd h h'

theorem BMap.receiveSet_values_neg (m : BMap) (c : List Ts) (t : Ts)
    (k v : Char) (h : ¬ bApplyCond m.values t k = true) :
    (m.receiveSet c t k v).values = m.values := by
  simp only [BMap.receiveSet]
  split
  · next h' => exact absurd h' h
  · rfl

theorem BMap.receiveSet_no_change (m : BMap) (c : List Ts) (t : Ts)
    (k v : Char) (e0 : Entry) (he0 : e0 ∈ m.values) (hk : e0.2.1 = k)
    (hge : tsLtb e0.1 t = false) :
    (m.receiveSet c t k v).values = m.values := by
  apply BMap.receiveSet_values_neg
  have hmem : e0 ∈ m.values.filter (fun e => decide (e.2.1 = k)) := by
    simp [List.mem_filter, he0, hk]
  simp only [bApplyCond, Bool.or_eq_true, List.isEmpty_iff, List.all_eq_true,
    not_or]
  constructor
  · intro hnil
    rw [hnil] at hmem
    exact absurd hmem (List.not_mem_nil _)
  · intro hall
    have := hall e0 hmem
    rw [hge] at this
    exact absurd this (by simp)

/-- C5: applying an identical `PutSync` (same context, version, key,
value) to a replica twice yields the same entry set as applying it once,
in the safe variant and in the unsafe variant. -/
theorem receiveSetIdempotent (mf : FMap) (mb : BMap) (c : List Ts) (t : Ts)
    (k v : Char) (e : Entry) :
    (e ∈ ((mf.receiveSet c t k v).receiveSet c t k v).values ↔
      e ∈ (mf.receiveSet c t k v).values) ∧
    (e ∈ ((mb.receiveSet c t k v).receiveSet c t k v).values ↔
      e ∈ (mb.receiveSet c t k v).values) := by
  constructor
  · simp only [FMap.mem_receiveSet_values]
    tauto
  · have hstep :
        ((mb.receiveSet c t k v).receiveSet c t k v).values
          = (mb.receiveSet c t k v).values := by
      by_cases h1 : bApplyCond mb.values t k = true
      · have hv1 := BMap.receiveSet_values_pos mb c t k v h1
        apply BMap.receiveSet_no_change _ c t k v (t, k, v)
        · rw [hv1]
          exact (mem_insertE _ _ _).mpr (Or.inl rfl)
        · rfl
        · exact tsLtb_irrefl t
      · have hv1 := BMap.receiveSet_values_neg mb c t k v h1
        have h2 : ¬ bApplyCond (mb.receiveSet c t k v).values t k = true := by
          rw [hv1]; exact h1
        rw [BMap.receiveSet_values_neg _ c t k v h2]
    rw [hstep]

/-- C6: in the safe variant, two causally unrelated sync messages —
neither message's version belongs to the other's context — commute:
receiving them in either order yields the same entry set. -/
theorem fixedSyncCommutes (s : FMap) (m1 m2 : FMsg) (e : Entry)
    (h : unrelatedMsgs m1 m2) :
    e ∈ ((s.applyMsg m1).applyMsg m2).values ↔
      e ∈ ((s.applyMsg m2).applyMsg m1).values := by
  obtain ⟨h12, h21⟩ := h
  cases m1 with
  | putSync c1 t1 k1 v1 =>
    have ht1 : t1 ∉ m2.context := h12 t1 (by simp [FMsg.vers])
    cases m2 with
    | putSync c2 t2 k2 v2 =>
      have ht2 : t2 ∉ c1 := h21 t2 (by simp [FMsg.vers])
      simp only [FMsg.context] at ht1
      simp only [FMap.applyMsg, FMap.mem_receiveSet_values]
      constructor
      · rintro (rfl | ⟨(rfl | ⟨hs, hc1⟩), hc2⟩)
        · exact Or.inr ⟨Or.inl rfl, ht2⟩
        · exact Or.inl rfl
        · exact Or.inr ⟨Or.inr ⟨hs, hc2⟩, hc1⟩
      · rintro (rfl | ⟨(rfl | ⟨hs, hc2⟩), hc1⟩)
        · exact Or.inr ⟨Or.inl rfl, ht1⟩
        · exact Or.inl rfl
        · exact Or.inr ⟨Or.inr ⟨hs, hc1⟩, hc2⟩
    | deleteSync c2 =>
      simp only [FMsg.context] at ht1
      simp only [FMap.applyMsg, FMap.mem_receiveSet_values,
        FMap.mem_receiveDelete_values]
      constructor
      · rintro ⟨(rfl | ⟨hs, hc1⟩), hc2⟩
        · exact Or.inl rfl
        · exact Or.inr ⟨⟨hs, hc2⟩, hc1⟩
      · rintro (rfl | ⟨⟨hs, hc2⟩, hc1⟩)
        · exact ⟨Or.inl rfl, ht1⟩
        · exact ⟨Or.inr ⟨hs, hc1⟩, hc2⟩
  | deleteSync c1 =>
    cases m2 with
    | putSync c2 t2 k2 v2 =>
      have ht2 : t2 ∉ (FMsg.deleteSync c1).context := h21 t2 (by simp [FMsg.vers])
      simp only [FMsg.context] at ht2
      simp only [FMap.applyMsg, FMap.mem_receiveSet_values,
        FMap.mem_receiveDelete_values]
      constructor
      · rintro (rfl | ⟨⟨hs, hc1⟩, hc2⟩)
        · exact ⟨Or.inl rfl, ht2⟩
        · exact ⟨Or.inr ⟨hs, hc2⟩, hc1⟩
      · rintro ⟨(rfl | ⟨hs, hc2⟩), hc1⟩
        · exact Or.inl rfl
        · exact Or.inr ⟨⟨hs, hc1⟩, hc2⟩
    | deleteSync c2 =>
      simp only [FMap.applyMsg, FMap.mem_receiveDelete_values]
      tauto

/-- Witness for the C6 theorem: two concurrent writes to the same key
with empty contexts commute on a fresh replica. -/
theorem fixedSyncCommutesWitness :
    (((1, 0), 'a', 'x') ∈
        (((FMap.new 0).applyMsg (.putSync [] (1, 0) 'a' 'x')).applyMsg
          (.putSync [] (1, 1) 'a' 'y')).values ↔
      ((1, 0), 'a', 'x') ∈
        (((FMap.new 0).applyMsg (.putSync [] (1, 1) 'a' 'y')).applyMsg
          (.putSync [] (1, 0) 'a' 'x')).values) :=
  fixedSyncCommutes (FMap.new 0) (.putSync [] (1, 0) 'a' 'x')
    (.putSync [] (1, 1) 'a' 'y') ((1, 0), 'a', 'x') (by decide)

/-- A replica state of the unsafe variant holding two entries for one
key, the shape the unsafe variant's merge rule can itself produce. -/
def bm8c : BMap :=
  { actor_id := 0, max_op := 2
    values := [((1, 0), 'b', 'x'), ((2, 0), 'b', 'y')] }

/-- C8 counterexample: in the unsafe variant, after
`receive_set([], (2,0), b, y)` on `bm8c` the only entry for the key other
than the received one carries version `(1,0)`, which is not greater than
`(2,0)`, yet `get` returns `x`, not the received value `y` — the unsafe
`get` picks the first (smallest-version) matching entry. -/
theorem roundTripCounterexample :
    (bm8c.receiveSet [] (2, 0) 'b' 'y').values
      = [((1, 0), 'b', 'x'), ((2, 0), 'b', 'y')] ∧
    tsLtb (2, 0) (1, 0) = false ∧
    ¬ ((bm8c.receiveSet [] (2, 0) 'b' 'y').get 'b' = some 'y') := by decide

theorem BMap.exists_key_receiveSet (m : BMap) (c : List Ts) (t : Ts)
    (k v : Char) : ∃ e ∈ (m.receiveSet c t k v).values, e.2.1 = k := by
  by_cases h : bApplyCond m.values t k = true
  · refine ⟨(t, k, v), ?_, rfl⟩
    rw [BMap.receiveSet_values_pos m c t k v h]
    exact (mem_insertE _ _ _).mpr (Or.inl rfl)
  · rw [BMap.receiveSet_values_neg m c t k v h]
    simp only [bApplyCond, Bool.or_eq_true, not_or] at h
    obtain ⟨hne, _⟩ := h
    have hnil : m.values.filter (fun e => decide (e.2.1 = k)) ≠ [] := by
      intro hnil
      exact hne (by rw [hnil]; rfl)
    obtain ⟨p, hp⟩ := List.exists_mem_of_ne_nil _ hnil
    have hmf := List.mem_filter.mp hp
    exact ⟨p, hmf.1, by simpa using hmf.2⟩

/-- C8 amended: after `receive_set(context, t, key, v)`, provided the
replica then holds no entry for the key other than `(t, key, v)` itself,
`get(key)` returns the received value; this holds in both variants.  (The
original hypothesis — no other entry with a strictly greater version —
is not enough: the unsafe `get` returns the smallest-version match, and
the safe `get` may pick a colliding same-version sibling.) -/
theorem roundTripAmended (mf : FMap) (mb : BMap) (cf cb : List Ts) (t : Ts)
    (k v : Char) :
    ((∀ e ∈ (mf.receiveSet cf t k v).values, e.2.1 = k → e = (t, k, v)) →
        (mf.receiveSet cf t k v).get k = some v) ∧
    ((∀ e ∈ (mb.receiveSet cb t k v).values, e.2.1 = k → e = (t, k, v)) →
        (mb.receiveSet cb t k v).get k = some v) := by
  constructor
  · intro hq
    have hmem : (t, k, v) ∈ (mf.receiveSet cf t k v).values :=
      (FMap.mem_receiveSet_values _ _ _ _ _ _).mpr (Or.inl rfl)
    have hall : ∀ x ∈ keyVersionsL (mf.receiveSet cf t k v).values k, x = t := by
      intro x hx
      rw [mem_keyVersionsL] at hx
      obtain ⟨e, he, hk, hx1⟩ := hx
      have he' := hq e he hk
      rw [he'] at hx1
      exact hx1.symm
    have htm : t ∈ keyVersionsL (mf.receiveSet cf t k v).values k :=
      (mem_keyVersionsL _ _ _).mpr ⟨(t, k, v), hmem, rfl, rfl⟩
    have hne : keyVersionsL (mf.receiveSet cf t k v).values k ≠ [] := by
      intro hnil
      rw [hnil] at htm
      exact absurd htm (List.not_mem_nil _)
    have hmax := listMaxTs_all_eq _ t hne hall
    simp only [FMap.get, hmax]
    cases hf : (mf.receiveSet cf t k v).values.find?
        (fun e => decide (e.2.1 = k) && decide (e.1 = t)) with
    | none =>
      exfalso
      have := List.find?_eq_none.mp hf (t, k, v) hmem
      simp at this
    | some e0 =>
      have hp := List.find?_some hf
      have hm := List.mem_of_find?_eq_some hf
      simp only [Bool.and_eq_true, decide_eq_true_eq] at hp
      have he0 : e0 = (t, k, v) := hq e0 hm hp.1
      rw [he0]
      rfl
  · intro hq
    obtain ⟨e0, he0, hk0⟩ := BMap.exists_key_receiveSet mb cb t k v
    simp only [BMap.get]
    cases hf : (mb.receiveSet cb t k v).values.find?
        (fun e => decide (e.2.1 = k)) with
    | none =>
      exfalso
      have := List.find?_eq_none.mp hf e0 he0
      simp [hk0] at this
    | some e1 =>
      have hp := List.find?_some hf
      have hm := List.mem_of_find?_eq_some hf
      simp only [decide_eq_true_eq] at hp
      have he1 : e1 = (t, k, v) := hq e1 hm hp
      rw [he1]
      rfl

/-- Witness for the C8 amended theorem: a fresh replica of either variant
receiving a write holds only that entry and reads it back. -/
theorem roundTripAmendedWitness :
    ((FMap.new 0).receiveSet [] (1, 0) 'b' 'x').get 'b' = some 'x' ∧
    ((BMap.new 0).receiveSet [] (1, 0) 'b' 'x').get 'b' = some 'x' :=
  ⟨(roundTripAmended (FMap.new 0) (BMap.new 0) [] [] (1, 0) 'b' 'x').1 (by decide),
   (roundTripAmended (FMap.new 0) (BMap.new 0) [] [] (1, 0) 'b' 'x').2 (by decide)⟩

/-- Invariant of C9 for the safe variant: every stored version's counter
is bounded by the replica's counter. -/
def FMap.inv (m : FMap) : Prop := ∀ e ∈ m.values, e.1.1 ≤ m.max_op

/-- Invariant of C9 for the unsafe variant. -/
def BMap.inv (m : BMap) : Prop := ∀ e ∈ m.values, e.1.1 ≤ m.max_op

instance (m : FMap) : Decidable m.inv := by
  unfold FMap.inv; infer_instance

instance (m : BMap) : Decidable m.inv := by
  unfold BMap.inv; infer_instance

theorem FMap.max_op_le_receiveDelete (m : FMap) (c : List Ts) :
    m.max_op ≤ (m.receiveDelete c).max_op := by
  simp only [FMap.receiveDelete]
  cases h : listMaxTs c with
  | none => exact Nat.le_refl _
  | some t => exact Nat.le_max_left _ _

/-- C9: in both variants, every stored version's counter is at most the
replica's `max_op`; `new` establishes the invariant and `set`, `delete`,
`receive_set` and `receive_delete` preserve it; consequently a fresh
version issued by `set` has a counter strictly greater than the counter
of every entry stored at the moment of issue. -/
theorem counterInvariantPreserved (i : Nat) (mf : FMap) (mb mb' : BMap)
    (c : List Ts) (t : Ts) (k v : Char)
    (hf : mf.inv) (hb : mb.inv) (hd : mb.receiveDelete c = some mb') :
    (FMap.new i).inv ∧ (BMap.new i).inv ∧
    (mf.set k v).2.inv ∧ (mf.delete k).2.inv ∧
    (mf.receiveSet c t k v).inv ∧ (mf.receiveDelete c).inv ∧
    (mb.set k v).2.inv ∧ (mb.delete k).2.inv ∧
    (mb.receiveSet c t k v).inv ∧ mb'.inv ∧
    (∀ e ∈ mf.values, e.1.1 < (mf.set k v).1.2.1) ∧
    (∀ e ∈ mb.values, e.1.1 < (mb.set k v).1.2.1) := by
  refine ⟨?_, ?_, ?_, ?_, ?_, ?_, ?_, ?_, ?_, ?_, ?_, ?_⟩
  · intro e he; exact absurd he (List.not_mem_nil _)
  · intro e he; exact absurd he (List.not_mem_nil _)
  · intro e he
    simp only [FMap.set] at he ⊢
    rw [mem_insertE] at he
    rcases he with rfl | he
    · exact Nat.le_refl _
    · exact Nat.le_succ_of_le (hf e (List.mem_filter.mp he).1)
  · intro e he
    simp only [FMap.delete] at he ⊢
    exact hf e (List.mem_filter.mp he).1
  · intro e he
    rw [FMap.mem_receiveSet_values] at he
    show e.1.1 ≤ max mf.max_op t.1
    rcases he with rfl | ⟨he, _⟩
    · exact Nat.le_max_right _ _
    · exact le_trans (hf e he) (Nat.le_max_left _ _)
  · intro e he
    rw [FMap.mem_receiveDelete_values] at he
    exact le_trans (hf e he.1) (FMap.max_op_le_receiveDelete mf c)
  · intro e he
    simp only [BMap.set] at he ⊢
    rw [mem_insertE] at he
    rcases he with rfl | he
    · exact Nat.le_refl _
    · have hev : e ∈ mb.values := by
        rcases hfind : mb.values.find? (fun x => decide (x.2.1 = k)) with _ | p
        · rw [hfind] at he; exact he
        · rw [hfind] at he; exact (List.mem_filter.mp he).1
      exact Nat.le_succ_of_le (hb e hev)
  · intro e he
    rcases hfind : mb.values.find? (fun x => decide (x.2.1 = k)) with _ | p
    · simp only [BMap.delete, hfind] at he ⊢
      exact hb e he
    · simp only [BMap.delete, hfind] at he ⊢
      exact hb e (List.mem_filter.mp he).1
  · intro e he
    have hmax : (mb.receiveSet c t k v).max_op = max mb.max_op t.1 := by
      simp only [BMap.receiveSet]; split <;> rfl
    rw [hmax]
    by_cases hcond : bApplyCond mb.values t k = true
    · rw [BMap.receiveSet_values_pos mb c t k v hcond] at he
      rw [mem_insertE] at he
      rcases he with rfl | he
      · exact Nat.le_max_right _ _
      · exact le_trans (hb e (List.mem_filter.mp he).1) (Nat.le_max_left _ _)
    · rw [BMap.receiveSet_values_neg mb c t k v hcond] at he
      exact le_trans (hb e he) (Nat.le_max_left _ _)
  · cases c with
    | nil => simp [BMap.receiveDelete] at hd
    | cons t0 rest =>
      simp only [BMap.receiveDelete] at hd
      have hmb' := Option.some.inj hd
      intro e he
      rcases hfind : (mb.updateMaxOp t0).values.find?
          (fun x => decide (x.1 = t0)) with _ | p
      · rw [hfind] at hmb'
        rw [← hmb'] at he ⊢
        simp only [BMap.bvalues_updateMaxOp] at he
        exact le_trans (hb e he) (Nat.le_max_left _ _)
      · rw [hfind] at hmb'
        rw [← hmb'] at he ⊢
        have hev := (List.mem_filter.mp he).1
        simp only [BMap.bvalues_updateMaxOp] at hev
        exact le_trans (hb e hev) (Nat.le_max_left _ _)
  · intro e he
    exact Nat.lt_succ_of_le (hf e he)
  · intro e he
    exact Nat.lt_succ_of_le (hb e he)

/-- Witness for the C9 theorem at concrete single-entry replicas. -/
theorem counterInvariantPreservedWitness :
    BMap.inv ⟨0, 1, []⟩ :=
  (counterInvariantPreserved 0 ⟨0, 1, [((1, 0), 'b', 'x')]⟩
    ⟨0, 1, [((1, 0), 'b', 'x')]⟩ ⟨0, 1, []⟩ [(1, 0)] (1, 0) 'b' 'x'
    (by decide) (by decide) (by decide)).2.2.2.2.2.2.2.2.2.1

/-- Key-injectivity of an entry list: no two distinct stored entries
share a key. -/
def keyInj (l : List Entry) : Prop :=
  ∀ e1 ∈ l, ∀ e2 ∈ l, e1.2.1 = e2.2.1 → e1 = e2

theorem keyInj_of_sub {l l' : List Entry} (hsub : ∀ x ∈ l', x ∈ l)
    (h : keyInj l) : keyInj l' :=
  fun e1 h1 e2 h2 hk => h e1 (hsub _ h1) e2 (hsub _ h2) hk

theorem keyInj_set (m : FMap) (k v : Char) (h : keyInj m.values) :
    keyInj (m.set k v).2.values := by
  intro e1 h1 e2 h2 hk
  simp only [FMap.set] at h1 h2
  rw [mem_insertE] at h1 h2
  have hfilt : ∀ e, e ∈ m.values.filter
      (fun x => decide (x.1 ∉ keyVersionsL m.values k)) → e.2.1 ≠ k := by
    intro e hef heq
    have hm := List.mem_filter.mp hef
    have hin : e.1 ∈ keyVersionsL m.values k :=
      (mem_keyVersionsL _ _ _).mpr ⟨e, hm.1, heq, rfl⟩
    have hd := hm.2
    simp only [decide_eq_true_eq] at hd
    exact hd hin
  rcases h1 with rfl | h1 <;> rcases h2 with rfl | h2
  · rfl
  · exact absurd hk.symm (hfilt e2 h2)
  · exact absurd hk (hfilt e1 h1)
  · exact h e1 (List.mem_filter.mp h1).1 e2 (List.mem_filter.mp h2).1 hk

theorem keyInj_delete (m : FMap) (k : Char) (h : keyInj m.values) :
    keyInj (m.delete k).2.values := by
  apply keyInj_of_sub _ h
  intro x hx
  simp only [FMap.delete] at hx
  exact (List.mem_filter.mp hx).1

theorem keyInj_runLocal (ops : List LocalOp) :
    ∀ m : FMap, keyInj m.values → keyInj (m.runLocal ops).values := by
  induction ops with
  | nil => exact fun m h => h
  | cons op tl ih =>
    intro m h
    simp only [FMap.runLocal, List.foldl_cons] at ih ⊢
    apply ih
    cases op with
    | setOp k v => exact keyInj_set m k v h
    | delOp k => exact keyInj_delete m k h

theorem oneOfEachKey_of_keyInj (l : List Entry) (h : keyInj l) :
    oneOfEachKey l := by
  unfold oneOfEachKey
  have himg : (l.map (fun e => e.2.1)).toFinset = l.toFinset.image (fun e => e.2.1) := by
    ext x
    simp [List.mem_toFinset, Finset.mem_image]
  rw [himg]
  apply Finset.card_image_of_injOn
  intro x hx y hy hxy
  rw [Finset.mem_coe, List.mem_toFinset] at hx hy
  exact h x hx y hy hxy

/-- C1 amended: the at-most-one-entry-per-key property holds for the safe
variant at every state reachable from a fresh replica by local operations
alone; receipt of a concurrent peer `PutSync` can create sibling entries
for one key, as the counterexample shows. -/
theorem fixedLocalOpsUniqueness (i : Nat) (ops : List LocalOp) :
    oneOfEachKey ((FMap.new i).runLocal ops).values := by
  apply oneOfEachKey_of_keyInj
  apply keyInj_runLocal
  intro e1 h1 e2 h2 _
  exact absurd h1 (List.not_mem_nil _)

/-- Witness for the C3 amended theorem: on a fresh replica the key is
absent, so `delete` returns an empty context and leaves the state
unchanged. -/
theorem fixedDeleteCharacterizationWitness :
    ((FMap.new 0).delete 'k').1 = some (keyVersionsL (FMap.new 0).values 'k') ∧
    (((1, 0), 'k', 'A') ∈ ((FMap.new 0).delete 'k').2.values ↔
      ((1, 0), 'k', 'A') ∈ (FMap.new 0).values ∧
        ((1, 0) : Ts) ∉ keyVersionsL (FMap.new 0).values 'k') ∧
    (FMap.new 0).delete 'k' = (some [], FMap.new 0) :=
  ⟨(fixedDeleteCharacterization (FMap.new 0) 'k' ((1, 0), 'k', 'A')).1,
   (fixedDeleteCharacterization (FMap.new 0) 'k' ((1, 0), 'k', 'A')).2.1,
   (fixedDeleteCharacterization (FMap.new 0) 'k' ((1, 0), 'k', 'A')).2.2
     (by decide)⟩
